import Mathlib

/-!
Shallow embedding of the TaskFlow day-planner scheduling engine.

The definitions below are translated from the planner-related logic of the
application source (the `PlannerController`, `TaskManager` and
`UIController.handleTaskSubmit` objects).  JavaScript specifics are modelled
as follows:

* A stored `HH:MM` string field is abstracted by its parse class `TimeStr`:
  `null` stands for `null`/`undefined`/the empty string (all falsy),
  `valid h m` for a string that `split(':').map(Number)` turns into the
  numbers `h` and `m`, and `malformed` for a non-empty string whose parse
  yields `NaN`.  Every comparison against `NaN` in the source evaluates to
  `false`; the embedding reproduces that explicitly at each use site.
* `task.plannedDuration` is `Option Nat`: `none` models a missing (or `NaN`)
  value; the JavaScript default `d || 30` additionally treats `0` as missing,
  which `durOf` reproduces.
* Calendar dates are opaque; they are modelled as `Option Nat`
  (`none` = `null`/absent).
* `Array.prototype.sort` with a consistent comparator is required by the
  language standard to be a stable sort; it is modelled by the structural
  stable insertion sort `stableSortBy`, whose permutation, sortedness and
  stability properties are proved below.
* The task store is the evolving `List Task`; `TaskManager.updateTask`
  merges an updates object into the first record whose `id` matches, which
  is modelled by `updateTask` applied to a per-call-site merge function.
-/

namespace TaskFlow

/-- Parse class of a JavaScript string field holding a wall-clock time.
`null` covers `null`/`undefined`/the empty string (falsy), `valid h m` a
string parsing to the numbers `h` and `m`, `malformed` a truthy string whose
numeric parse is `NaN`. -/
inductive TimeStr where
  | null
  | valid (h m : Nat)
  | malformed
deriving DecidableEq

/-- JavaScript truthiness of the stored string: only `null`/`undefined`/empty
are falsy. -/
def TimeStr.truthy : TimeStr → Bool
  | .null => false
  | _ => true

/-- Minutes since midnight obtained from `s.split(':').map(Number)` followed
by `h * 60 + m`; `none` models the `NaN` outcome of a failed parse. -/
def TimeStr.toMinutes : TimeStr → Option Nat
  | .valid h m => some (h * 60 + m)
  | _ => none

/-- Task priority; `other` stands for any string outside the three known
values, for which `priorityOrder[p] || 0` yields rank `0` in the source. -/
inductive Priority where
  | high
  | medium
  | low
  | other
deriving DecidableEq

/-- The `priorityOrder` lookup table `{high: 3, medium: 2, low: 1}` combined
with the `|| 0` fallback. -/
def priorityOrder : Priority → Nat
  | .high => 3
  | .medium => 2
  | .low => 1
  | .other => 0

/-- A task record, restricted to the fields the scheduling engine reads or
writes.  `extra` stands for the remaining fields (`title`, `description`,
`categoryId`, `color`, `subtasks`, `createdAt`, `order`), which the engine
copies around unchanged. -/
structure Task where
  id : Nat
  priority : Priority
  dueDate : Option Nat
  preferredTime : TimeStr
  plannedStartTime : TimeStr
  plannedDuration : Option Nat
  completed : Bool
  extra : Nat
deriving DecidableEq

/-- The idiom `task.plannedDuration || 30`: a missing (or `NaN`) duration and
the falsy number `0` both fall back to the 30-minute default. -/
def durOf (t : Task) : Nat :=
  match t.plannedDuration with
  | some d => if d = 0 then 30 else d
  | none => 30

/-- The engine's half-open interval overlap test, the expression
`aStart < bEnd && aEnd > bStart` inlined at each collision check in the
source. -/
def intervalsOverlap (aStart aEnd bStart bEnd : Nat) : Bool :=
  decide (aStart < bEnd) && decide (aEnd > bStart)

/-- The collision query `scheduled.some(s => ...)` over a committed set:
each entry's interval is recomputed from its `plannedStartTime` string and
`plannedDuration || 30`; an entry whose start parses to `NaN` makes both
comparisons false and thus never reports an overlap. -/
def overlapsAny (scheduled : List Task) (myStart myEnd : Nat) : Bool :=
  scheduled.any fun s =>
    match s.plannedStartTime.toMinutes with
    | some sStart => intervalsOverlap myStart myEnd sStart (sStart + durOf s)
    | none => false

/-- `TaskManager.updateTask(taskId, updates)`: merge the updates into the
first record whose `id` matches and leave every other record untouched; the
merge performed by each call site is passed as `f`. -/
def updateTask : List Task → Nat → (Task → Task) → List Task
  | [], _, _ => []
  | t :: ts, taskId, f =>
      if t.id = taskId then f t :: ts else t :: updateTask ts taskId f

/-- Insert `a` in front of the first element `b` with `le a b`; together with
`stableSortBy` this realises a stable sort. -/
def insertBy (le : Task → Task → Bool) (a : Task) : List Task → List Task
  | [] => [a]
  | b :: bs => if le a b then a :: b :: bs else b :: insertBy le a bs

/-- Stable insertion sort modelling `Array.prototype.sort(cmp)` for a
consistent comparator, with `le a b` standing for `cmp(a, b) <= 0`; the
language standard requires the sort to be stable, and a stable sort by a
total preorder is unique, so any compliant engine produces this list. -/
def stableSortBy (le : Task → Task → Bool) : List Task → List Task
  | [] => []
  | a :: as => insertBy le a (stableSortBy le as)

-- Timeline configuration of the `PlannerController` (full render range).

/-- Pixels per rendered hour on the timeline. -/
def timeSlotHeight : Nat := 60

/-- First rendered hour of the timeline (midnight). -/
def startHour : Nat := 0

/-- One past the last rendered hour of the timeline (midnight next day). -/
def endHour : Nat := 24

/-- Start of the auto-schedule working window, `8 * 60` minutes. -/
def workStartMins : Nat := 8 * 60

/-- End of the auto-schedule working window, `20 * 60` minutes. -/
def workEndMins : Nat := 20 * 60

/-- The auto-schedule comparator for tasks without a preferred time, as a
`<=`-style relation: `cmp(a, b) <= 0` for the source comparator that returns
`pB - pA` when priorities differ and `dB - dA` otherwise. -/
def sortLe (a b : Task) : Bool :=
  if priorityOrder a.priority = priorityOrder b.priority then
    decide (durOf b ≤ durOf a)
  else
    decide (priorityOrder b.priority < priorityOrder a.priority)

/-- The filter `t => !t.plannedStartTime && !t.completed` selecting the tasks
auto-schedule tries to place. -/
def isUnscheduledActive (t : Task) : Bool :=
  !t.plannedStartTime.truthy && !t.completed

/-- The filter `t => t.plannedStartTime && !t.completed` seeding the
committed set. -/
def isScheduledActive (t : Task) : Bool :=
  t.plannedStartTime.truthy && !t.completed

/-- The unscheduled set computed at the top of `autoScheduleTasks`. -/
def unscheduledOf (tasks : List Task) : List Task :=
  tasks.filter isUnscheduledActive

/-- The placement order of one auto-schedule run: tasks with a (truthy)
`preferredTime` first, in original order, followed by the remaining
unscheduled tasks sorted by the priority/duration comparator. -/
def placementOrder (tasks : List Task) : List Task :=
  let unscheduled := unscheduledOf tasks
  let withPref := unscheduled.filter fun t => t.preferredTime.truthy
  let withoutPref := unscheduled.filter fun t => !t.preferredTime.truthy
  withPref ++ stableSortBy sortLe withoutPref

/-- The candidate start times visited by the slot scan
`for (time = workStartMins; time <= workEndMins - duration; time += 15)`,
in visiting order.  `49` steps of 15 minutes cover the whole 12-hour window;
the filter reproduces the loop bound (in `Nat` form `time + duration <=
workEndMins`, equivalent to the source's subtraction on numbers). -/
def candidateStarts (duration : Nat) : List Nat :=
  ((List.range 49).map fun k => workStartMins + 15 * k).filter fun time =>
    decide (time + duration ≤ workEndMins)

/-- Strategy A of the per-task placement: commit at `preferredTime` when it
parses, lies inside the working window and does not collide with the
committed set.  A malformed preferred string makes `pStart` `NaN` in the
source, so the window comparison is false and the strategy yields nothing,
exactly as the `none` branch does here. -/
def tryPreferred (scheduled : List Task) (t : Task) : Option TimeStr :=
  match t.preferredTime with
  | .valid pH pM =>
      let pStart := pH * 60 + pM
      let pEnd := pStart + durOf t
      if !overlapsAny scheduled pStart pEnd && decide (workStartMins ≤ pStart)
          && decide (pEnd ≤ workEndMins) then
        some t.preferredTime
      else
        none
  | _ => none

/-- Formatting a minute offset back into the committed `HH:MM` string via
`Math.floor(time / 60)` and `time % 60` with zero padding. -/
def minutesToTimeStr (time : Nat) : TimeStr :=
  .valid (time / 60) (time % 60)

/-- One iteration of the `sortedUnscheduled.forEach` body, reduced to the
scheduling decision: Strategy A (preferred time) first, otherwise the
15-minute slot scan committing at the first collision-free start. -/
def autoPlaceOne (scheduled : List Task) (t : Task) : Option TimeStr :=
  match tryPreferred scheduled t with
  | some tv => some tv
  | none =>
      ((candidateStarts (durOf t)).find? fun time =>
        !overlapsAny scheduled time (time + durOf t)).map minutesToTimeStr

/-- The merge `{...task, plannedStartTime: v}` used by every commit that sets
only the start time. -/
def setStart (tv : TimeStr) (u : Task) : Task :=
  { u with plannedStartTime := tv }

/-- The `sortedUnscheduled.forEach` loop: each committed task is written to
the store and appended to the running committed set before the next task is
processed.  The source additionally keeps the committed set sorted by start
time; the sort is dropped here because the set is only ever consulted through
the order-independent `some(...)` collision query. -/
def autoLoop : List Task → List Task → List Task → Nat → List Task × Nat
  | [], store, _, count => (store, count)
  | t :: rest, store, scheduled, count =>
      match autoPlaceOne scheduled t with
      | some tv =>
          autoLoop rest (updateTask store t.id (setStart tv))
            (scheduled ++ [setStart tv t]) (count + 1)
      | none => autoLoop rest store scheduled count

/-- `PlannerController.autoScheduleTasks`: returns the task store after the
run together with the reported `scheduledCount`.  When there is nothing to
place the function returns early (a toast is shown, no state changes). -/
def autoScheduleTasks (tasks : List Task) : List Task × Nat :=
  let unscheduled := unscheduledOf tasks
  if unscheduled.isEmpty then (tasks, 0)
  else
    let scheduled := tasks.filter isScheduledActive
    autoLoop (placementOrder tasks) tasks scheduled 0

/-- The relevance filter `t.dueDate === today || !t.dueDate` used by the
planner's `renderTasks` partition (not by `autoScheduleTasks`). -/
def isRelevantToday (today : Nat) (t : Task) : Bool :=
  decide (t.dueDate = some today) || decide (t.dueDate = none)

/-- Outcome of one `quickScheduleTask` call, distinguishing the two
user-visible rejections from a commit. -/
inductive QuickResult where
  | notFound
  | outOfWindow
  | slotOccupied
  | committed (tv : TimeStr)
deriving DecidableEq

/-- The committed set consulted by quick-schedule:
`t.plannedStartTime && !t.completed && t.id !== taskId`. -/
def activeOthers (tasks : List Task) (taskId : Nat) : List Task :=
  tasks.filter fun t =>
    t.plannedStartTime.truthy && !t.completed && decide (t.id ≠ taskId)

/-- `PlannerController.quickScheduleTask(taskId, timeString)`.  For a target
whose parse yields `NaN` (`.null` as the empty string gives `minutes = NaN`,
`.malformed` gives `NaN` for both components) every comparison in the window
guard and in the collision query is false in the source, so the string is
committed as is; that branch is reproduced verbatim. -/
def quickScheduleTask (tasks : List Task) (taskId : Nat) (timeString : TimeStr) :
    List Task × QuickResult :=
  match tasks.find? fun t => decide (t.id = taskId) with
  | none => (tasks, .notFound)
  | some task =>
      match timeString with
      | .valid hours minutes =>
          if decide (hours < startHour) || decide (endHour ≤ hours) then
            (tasks, .outOfWindow)
          else
            let myStart := hours * 60 + minutes
            let myEnd := myStart + durOf task
            if overlapsAny (activeOthers tasks taskId) myStart myEnd then
              (tasks, .slotOccupied)
            else
              (updateTask tasks taskId (setStart timeString),
                .committed timeString)
      | _ =>
          (updateTask tasks taskId (setStart timeString),
            .committed timeString)

/-- `Math.round(totalMinutes / 15) * 15`: JavaScript rounds half away from
zero upward, i.e. `Math.round(x) = floor(x + 1/2)`, and `/` on `Int` is
floor division for a positive divisor, so the snap is
`floor((2 * m + 15) / 30) * 15`. -/
def jsRound15 (totalMinutes : Int) : Int :=
  (2 * totalMinutes + 15) / 30 * 15

/-- The `totalMinutes` then `snappedMinutes` computation of `handleDrop`:
with `timeSlotHeight = 60` the pixel-to-minute conversion
`(relativeY / 60) * 60` is the identity, so the raw minutes are
`startHour * 60 + relativeY`, then snapped to the 15-minute grid. -/
def dropSnapped (relativeY : Int) : Int :=
  jsRound15 ((startHour : Int) * 60 + relativeY)

/-- The derived drop hour, `Math.floor(snappedMinutes / 60)`; `Int` division
is floor division for the positive divisor. -/
def dropHour (relativeY : Int) : Int :=
  dropSnapped relativeY / 60

/-- The derived drop minute, `snappedMinutes % 60`; the JavaScript remainder
agrees with `emod` whenever the window guard admits the drop (then
`snappedMinutes >= 0`), and it is unused otherwise. -/
def dropMinute (relativeY : Int) : Int :=
  dropSnapped relativeY % 60

/-- `PlannerController.handleDrop`, starting from the already computed
vertical offset `relativeY` (pointer position relative to the timeline top,
scroll included, minus the 16px header), at integer pixel resolution. -/
def handleDrop (tasks : List Task) (draggedTask : Task) (today : Nat)
    (relativeY : Int) : List Task :=
  if dropHour relativeY < startHour ∨ (endHour : Int) ≤ dropHour relativeY then
    tasks
  else
    updateTask tasks draggedTask.id fun u =>
      { u with
        plannedStartTime := TimeStr.valid (dropHour relativeY).toNat
          (dropMinute relativeY).toNat
        plannedDuration := some (durOf draggedTask)
        dueDate := if draggedTask.dueDate = none then some today else u.dueDate }

/-- The duration committed by `handleResizeEnd` from a raw height of
`rawMins` minutes (at 60 px per hour the rendered height in pixels equals
the raw minutes): snap to the nearest 15-minute multiple by
`Math.round(mins / 15) * 15`, then floor at 15. -/
def resizeCommitDuration (rawMins : Nat) : Nat :=
  let snapped := (2 * rawMins + 15) / 30 * 15
  if snapped < 15 then 15 else snapped

/-- `PlannerController.handleResizeEnd` reduced to its state effect: persist
the snapped-and-floored duration for the resized task. -/
def handleResizeEnd (tasks : List Task) (taskId : Nat) (rawMins : Nat) :
    List Task :=
  updateTask tasks taskId fun u =>
    { u with plannedDuration := some (resizeCommitDuration rawMins) }

/-- The duration assembled by `UIController.handleTaskSubmit` from the hour
and minute form fields (`parseInt(...) || 0` each), floored at 15. -/
def submitDuration (hoursField minutesField : Nat) : Nat :=
  let d := hoursField * 60 + minutesField
  if d < 15 then 15 else d

/-- The JavaScript `v || dflt` default on a number already known to be a
non-`NaN` natural: only `0` is falsy.  `TaskManager.createTask` applies it to
the submitted duration. -/
def jsOrNat (v dflt : Nat) : Nat :=
  if v = 0 then dflt else v

/-- Derived interval overlap between two task records, following the engine's
per-entry computation: both starts must parse, otherwise the `NaN`
comparisons make the test false. -/
def overlapB (a b : Task) : Bool :=
  match a.plannedStartTime.toMinutes, b.plannedStartTime.toMinutes with
  | some sa, some sb => intervalsOverlap sa (sa + durOf a) sb (sb + durOf b)
  | _, _ => false

/-- Two records violate the active non-overlap invariant when both are
non-completed and their derived intervals overlap. -/
def conflictB (a b : Task) : Bool :=
  !a.completed && !b.completed && overlapB a b

/-- The auto-schedule non-overlap invariant over a task store: no pair of
distinct active scheduled records has overlapping derived intervals. -/
def TasksDisjoint (tasks : List Task) : Prop :=
  tasks.Pairwise fun a b => conflictB a b = false

instance (tasks : List Task) : Decidable (TasksDisjoint tasks) :=
  inferInstanceAs (Decidable (tasks.Pairwise fun a b => conflictB a b = false))

/-- Frame relation between the input store and the store during or after an
auto-schedule run: positionally equal, except that some unscheduled active
records have had exactly their `plannedStartTime` set to a truthy value. -/
def StoreFrame (tasks store : List Task) : Prop :=
  store.length = tasks.length ∧
    ∀ i (h1 : i < tasks.length) (h2 : i < store.length),
      store.get ⟨i, h2⟩ = tasks.get ⟨i, h1⟩ ∨
        ∃ tv, TimeStr.truthy tv = true ∧
          store.get ⟨i, h2⟩ = setStart tv (tasks.get ⟨i, h1⟩) ∧
          isUnscheduledActive (tasks.get ⟨i, h1⟩) = true

/-! Basic properties of `updateTask`. -/

theorem updateTask_length (l : List Task) (taskId : Nat) (f : Task → Task) :
    (updateTask l taskId f).length = l.length := by
  induction l with
  | nil => rfl
  | cons t ts ih =>
      by_cases h : t.id = taskId <;> simp [updateTask, h, ih]

theorem updateTask_mem {l : List Task} {taskId : Nat} {f : Task → Task} {a : Task}
    (ha : a ∈ updateTask l taskId f) :
    a ∈ l ∨ ∃ u, u ∈ l ∧ u.id = taskId ∧ a = f u := by
  induction l with
  | nil => simp [updateTask] at ha
  | cons t ts ih =>
      by_cases h : t.id = taskId
      · simp only [updateTask, if_pos h] at ha
        rcases List.mem_cons.mp ha with rfl | ha
        · exact Or.inr ⟨t, List.mem_cons_self t ts, h, rfl⟩
        · exact Or.inl (List.mem_cons_of_mem t ha)
      · simp only [updateTask, if_neg h] at ha
        rcases List.mem_cons.mp ha with rfl | ha
        · exact Or.inl (List.mem_cons_self a ts)
        · rcases ih ha with h1 | ⟨u, hu, hid, he⟩
          · exact Or.inl (List.mem_cons_of_mem t h1)
          · exact Or.inr ⟨u, List.mem_cons_of_mem t hu, hid, he⟩

theorem mem_updateTask_of_ne {l : List Task} {taskId : Nat} {f : Task → Task} {u : Task}
    (hu : u ∈ l) (hne : u.id ≠ taskId) : u ∈ updateTask l taskId f := by
  induction l with
  | nil => simp at hu
  | cons t ts ih =>
      rcases List.mem_cons.mp hu with rfl | hu
      · simp [updateTask, if_neg hne]
      · by_cases h : t.id = taskId
        · simp [updateTask, if_pos h, List.mem_cons_of_mem _ hu]
        · simp only [updateTask, if_neg h]
          exact List.mem_cons_of_mem t (ih hu)

theorem updateTask_map {β : Type} (l : List Task) (taskId : Nat) (f : Task → Task)
    (g : Task → β) (hg : ∀ u, g (f u) = g u) :
    (updateTask l taskId f).map g = l.map g := by
  induction l with
  | nil => rfl
  | cons t ts ih =>
      by_cases h : t.id = taskId <;> simp [updateTask, h, ih, hg]

theorem updateTask_get {l : List Task} {taskId : Nat} {f : Task → Task} (i : Nat)
    (h1 : i < l.length) (h2 : i < (updateTask l taskId f).length) :
    (updateTask l taskId f).get ⟨i, h2⟩ = l.get ⟨i, h1⟩ ∨
      ((updateTask l taskId f).get ⟨i, h2⟩ = f (l.get ⟨i, h1⟩) ∧
        (l.get ⟨i, h1⟩).id = taskId) := by
  induction l generalizing i with
  | nil => simp at h1
  | cons t ts ih =>
      by_cases h : t.id = taskId
      · cases i with
        | zero => exact Or.inr ⟨by simp [updateTask, if_pos h], h⟩
        | succ j => exact Or.inl (by simp [updateTask, if_pos h])
      · cases i with
        | zero => exact Or.inl (by simp [updateTask, if_neg h])
        | succ j =>
            have h1' : j < ts.length := by simpa using h1
            have h2' : j < (updateTask ts taskId f).length := by
              simpa [updateTask_length] using h1'
            have := ih j h1' h2'
            simpa [updateTask, if_neg h] using this

theorem updateTask_append_ne {l : List Task} {x : Task} {taskId : Nat}
    {f : Task → Task} (hx : x.id ≠ taskId) :
    updateTask (l ++ [x]) taskId f = updateTask l taskId f ++ [x] := by
  induction l with
  | nil => simp [updateTask, if_neg hx]
  | cons t ts ih =>
      by_cases h : t.id = taskId <;> simp [updateTask, h, ih]

/-- Elements of a list with pairwise distinct `id`s are determined by their
`id`. -/
theorem eq_of_mem_of_id_eq {l : List Task} (hids : (l.map Task.id).Nodup)
    {a b : Task} (ha : a ∈ l) (hb : b ∈ l) (h : a.id = b.id) : a = b := by
  have hp : l.Pairwise fun x y => x.id ≠ y.id := List.pairwise_map.mp hids
  by_contra hne
  exact (hp.forall (fun x y hxy => (hxy ∘ Eq.symm)) ha hb hne) h

theorem mem_updateTask_self {l : List Task} {f : Task → Task} {t : Task}
    (hids : (l.map Task.id).Nodup) (ht : t ∈ l) :
    f t ∈ updateTask l t.id f := by
  induction l with
  | nil => simp at ht
  | cons u us ih =>
      by_cases h : u.id = t.id
      · have : u = t :=
          eq_of_mem_of_id_eq hids (List.mem_cons_self u us) (by assumption) h
        subst this
        simp [updateTask, if_pos rfl]
      · have ht' : t ∈ us := by
          rcases List.mem_cons.mp ht with rfl | ht'
          · exact absurd rfl h
          · exact ht'
        simp only [updateTask, if_neg h]
        exact List.mem_cons_of_mem u (ih (by simpa using hids.of_cons) ht')

theorem updateTask_mem_nodup {l : List Task} {f : Task → Task} {t a : Task}
    (hids : (l.map Task.id).Nodup) (ht : t ∈ l)
    (ha : a ∈ updateTask l t.id f) : a ∈ l ∨ a = f t := by
  rcases updateTask_mem ha with h | ⟨u, hu, hid, he⟩
  · exact Or.inl h
  · exact Or.inr (by rw [he, eq_of_mem_of_id_eq hids hu ht hid])

/-! Properties of the stable sort. -/

theorem insertBy_eq_append (le : Task → Task → Bool) (a : Task) (l : List Task) :
    ∃ A B, l = A ++ B ∧ insertBy le a l = A ++ a :: B ∧
      (∀ b ∈ A, le a b = false) ∧ ∀ b B2, B = b :: B2 → le a b = true := by
  induction l with
  | nil => exact ⟨[], [], rfl, rfl, by simp, by simp⟩
  | cons b bs ih =>
      by_cases h : le a b = true
      · exact ⟨[], b :: bs, rfl, by simp [insertBy, h], by simp,
          fun c C2 hc => by cases hc; exact h⟩
      · obtain ⟨A, B, h1, h2, h3, h4⟩ := ih
        refine ⟨b :: A, B, by simp [h1], by simp [insertBy, h, h2], ?_, h4⟩
        intro x hx
        rcases List.mem_cons.mp hx with rfl | hx
        · exact Bool.eq_false_iff.mpr h
        · exact h3 x hx

theorem insertBy_perm (le : Task → Task → Bool) (a : Task) (l : List Task) :
    (insertBy le a l).Perm (a :: l) := by
  obtain ⟨A, B, h1, h2, -, -⟩ := insertBy_eq_append le a l
  rw [h2, h1]
  exact List.perm_middle

theorem stableSortBy_perm (le : Task → Task → Bool) (l : List Task) :
    (stableSortBy le l).Perm l := by
  induction l with
  | nil => exact List.Perm.refl _
  | cons a as ih =>
      exact ((insertBy_perm le a (stableSortBy le as)).trans (ih.cons a))

theorem insertBy_pairwise {le : Task → Task → Bool}
    (htrans : ∀ a b c, le a b = true → le b c = true → le a c = true)
    (htot : ∀ a b, le a b = false → le b a = true)
    {a : Task} {l : List Task} (hl : l.Pairwise fun x y => le x y = true) :
    (insertBy le a l).Pairwise fun x y => le x y = true := by
  obtain ⟨A, B, h1, h2, h3, h4⟩ := insertBy_eq_append le a l
  subst h1
  rw [h2]
  rw [List.pairwise_append] at hl ⊢
  obtain ⟨hA, hB, hAB⟩ := hl
  refine ⟨hA, ?_, ?_⟩
  · rw [List.pairwise_cons]
    refine ⟨?_, hB⟩
    intro b hb
    cases B with
    | nil => simp at hb
    | cons b0 B2 =>
        rcases List.mem_cons.mp hb with rfl | hb
        · exact h4 b B2 rfl
        · exact htrans a b0 b (h4 b0 B2 rfl) ((List.pairwise_cons.mp hB).1 b hb)
  · intro x hx y hy
    rcases List.mem_cons.mp hy with rfl | hy
    · exact htot y x (h3 x hx)
    · exact hAB x hx y hy

theorem stableSortBy_pairwise {le : Task → Task → Bool}
    (htrans : ∀ a b c, le a b = true → le b c = true → le a c = true)
    (htot : ∀ a b, le a b = false → le b a = true) (l : List Task) :
    (stableSortBy le l).Pairwise fun x y => le x y = true := by
  induction l with
  | nil => exact List.Pairwise.nil
  | cons a as ih => exact insertBy_pairwise htrans htot ih

/-- Stability of the sort: a chain that is already ordered by the comparator
keeps its relative positions.  In particular two tied elements never swap. -/
theorem sublist_stableSortBy {le : Task → Task → Bool} {c l : List Task}
    (hc : c.Pairwise fun x y => le x y = true) (hsub : c.Sublist l) :
    c.Sublist (stableSortBy le l) := by
  induction l generalizing c with
  | nil =>
      rw [List.sublist_nil.mp hsub]
      exact List.nil_sublist _
  | cons x l2 ih =>
      obtain ⟨A, B, h1, h2, h3, -⟩ := insertBy_eq_append le x (stableSortBy le l2)
      cases hsub with
      | cons _ h =>
          have hres := ih hc h
          show c.Sublist (insertBy le x (stableSortBy le l2))
          rw [h2]
          refine hres.trans ?_
          rw [h1]
          exact (List.sublist_cons_self x B).append_left A
      | cons₂ _ h =>
          rename_i c2
          have hhead := (List.pairwise_cons.mp hc).1
          have hc2 := (List.pairwise_cons.mp hc).2
          have hres := ih hc2 h
          rw [h1] at hres
          obtain ⟨c3, c4, hce, hc3, hc4⟩ := List.sublist_append_iff.mp hres
          show (x :: c2).Sublist (insertBy le x (stableSortBy le l2))
          rw [h2]
          cases c3 with
          | nil =>
              have : c2.Sublist B := by simpa [hce] using hc4
              exact ((this.cons₂ x).trans (List.sublist_append_right A (x :: B)))
          | cons y c5 =>
              have hy : y ∈ A := hc3.mem (List.mem_cons_self y c5)
              have hyc : y ∈ c2 := by simp [hce]
              have := hhead y hyc
              rw [h3 y hy] at this
              cases this

/-! Properties of the auto-schedule comparator. -/

/-- The comparator as the spec states it: higher priority rank first, ties
broken by longer duration first. -/
theorem sortLe_iff (a b : Task) :
    sortLe a b = true ↔
      (priorityOrder b.priority < priorityOrder a.priority ∨
        (priorityOrder a.priority = priorityOrder b.priority ∧
          durOf b ≤ durOf a)) := by
  unfold sortLe
  by_cases hab : priorityOrder a.priority = priorityOrder b.priority
  · simp [hab]
  · simp [hab]

theorem sortLe_trans (a b c : Task) (h1 : sortLe a b = true)
    (h2 : sortLe b c = true) : sortLe a c = true := by
  rw [sortLe_iff] at h1 h2 ⊢
  omega

theorem sortLe_total (a b : Task) (h : sortLe a b = false) : sortLe b a = true := by
  have h' : ¬(sortLe a b = true) := by simp [h]
  rw [sortLe_iff] at h'
  rw [sortLe_iff]
  push_neg at h'
  omega

/-! Properties of the placement order. -/

theorem placementOrder_perm (tasks : List Task) :
    (placementOrder tasks).Perm (unscheduledOf tasks) := by
  unfold placementOrder
  exact (List.Perm.append_left _
    (stableSortBy_perm sortLe _)).trans (List.filter_append_perm _ _)

theorem mem_placementOrder {tasks : List Task} {u : Task}
    (hu : u ∈ placementOrder tasks) :
    u ∈ tasks ∧ isUnscheduledActive u = true := by
  have h := (placementOrder_perm tasks).mem_iff.mp hu
  unfold unscheduledOf at h
  exact ⟨(List.mem_filter.mp h).1, (List.mem_filter.mp h).2⟩

theorem unscheduledOf_ids_nodup {tasks : List Task}
    (hids : (tasks.map Task.id).Nodup) :
    ((unscheduledOf tasks).map Task.id).Nodup :=
  List.Nodup.sublist ((List.filter_sublist tasks).map Task.id) hids

theorem placementOrder_ids_nodup {tasks : List Task}
    (hids : (tasks.map Task.id).Nodup) :
    ((placementOrder tasks).map Task.id).Nodup :=
  (((placementOrder_perm tasks).map Task.id).symm).nodup
    (unscheduledOf_ids_nodup hids)

/-! Properties of the candidate slot scan. -/

theorem candidateStarts_pairwise (d : Nat) :
    (candidateStarts d).Pairwise (· < ·) := by
  unfold candidateStarts
  refine List.Pairwise.sublist (List.filter_sublist _) ?_
  rw [List.pairwise_map]
  refine (List.pairwise_lt_range 49).imp ?_
  intro a b h
  simp only [workStartMins]
  omega

theorem candidateStarts_mem (d time : Nat) :
    time ∈ candidateStarts d ↔
      workStartMins ≤ time ∧ time + d ≤ workEndMins ∧
        (time - workStartMins) % 15 = 0 := by
  unfold candidateStarts workStartMins workEndMins
  simp only [List.mem_filter, List.mem_map, List.mem_range, decide_eq_true_eq]
  constructor
  · rintro ⟨⟨k, hk, rfl⟩, h2⟩
    refine ⟨by omega, by omega, by omega⟩
  · rintro ⟨h1, h2, h3⟩
    exact ⟨⟨(time - 8 * 60) / 15, by omega, by omega⟩, by omega⟩

/-! Properties of the per-task placement. -/

theorem autoPlaceOne_sound {scheduled : List Task} {t : Task} {tv : TimeStr}
    (h : autoPlaceOne scheduled t = some tv) :
    ∃ hh mm time, tv = TimeStr.valid hh mm ∧ tv.toMinutes = some time ∧
      overlapsAny scheduled time (time + durOf t) = false := by
  unfold autoPlaceOne at h
  cases hp : tryPreferred scheduled t with
  | some tv0 =>
      rw [hp] at h
      have htv : tv0 = tv := by simpa using h
      subst htv
      unfold tryPreferred at hp
      cases hpref : t.preferredTime with
      | valid pH pM =>
          rw [hpref] at hp
          simp only at hp
          by_cases hc : (!overlapsAny scheduled (pH * 60 + pM) (pH * 60 + pM + durOf t)
              && decide (workStartMins ≤ pH * 60 + pM)
              && decide (pH * 60 + pM + durOf t ≤ workEndMins)) = true
          · rw [if_pos hc] at hp
            have he : tv0 = TimeStr.valid pH pM := by simpa using hp.symm
            simp only [Bool.and_eq_true, Bool.not_eq_true'] at hc
            exact ⟨pH, pM, pH * 60 + pM, he, by rw [he]; rfl, hc.1.1⟩
          · rw [if_neg hc] at hp
            cases hp
      | null => rw [hpref] at hp; cases hp
      | malformed => rw [hpref] at hp; cases hp
  | none =>
      rw [hp] at h
      obtain ⟨time, hfind, htv⟩ := Option.map_eq_some'.mp h
      have hpred := List.find?_some hfind
      have hov : overlapsAny scheduled time (time + durOf t) = false := by
        simpa using hpred
      have hmod : time / 60 * 60 + time % 60 = time := by omega
      exact ⟨time / 60, time % 60, time, htv.symm,
        by rw [← htv]; simp [minutesToTimeStr, TimeStr.toMinutes, hmod], hov⟩

theorem autoPlaceOne_congr {s : List Task} {t u : Task}
    (hp : t.preferredTime = u.preferredTime) (hd : durOf t = durOf u) :
    autoPlaceOne s t = autoPlaceOne s u := by
  unfold autoPlaceOne tryPreferred
  rw [hp, hd]

theorem autoPlaceOne_overlap_congr {s1 s2 : List Task} {t : Task}
    (h : ∀ a b, overlapsAny s1 a b = overlapsAny s2 a b) :
    autoPlaceOne s1 t = autoPlaceOne s2 t := by
  unfold autoPlaceOne tryPreferred
  simp only [h]

/-! Symmetry of the derived overlap relation and transparency of unparseable
start times. -/

theorem overlapB_symm (a b : Task) : overlapB a b = overlapB b a := by
  unfold overlapB intervalsOverlap
  cases a.plannedStartTime.toMinutes <;> cases b.plannedStartTime.toMinutes <;>
    simp [gt_iff_lt, Bool.and_comm]

theorem conflictB_symm (a b : Task) : conflictB a b = conflictB b a := by
  unfold conflictB
  cases a.completed <;> cases b.completed <;> simp [overlapB_symm a b]

theorem overlapsAny_middle {A B : List Task} {x : Task}
    (hx : x.plannedStartTime.toMinutes = none) (myStart myEnd : Nat) :
    overlapsAny (A ++ x :: B) myStart myEnd =
      overlapsAny (A ++ B) myStart myEnd := by
  unfold overlapsAny
  simp [List.any_append, List.any_cons, hx]

theorem truthy_of_toMinutes_some {s : TimeStr} {m : Nat}
    (h : s.toMinutes = some m) : s.truthy = true := by
  cases s with
  | valid hh mm => rfl
  | null => cases h
  | malformed => cases h

theorem unsched_active_elim {t : Task} (h : isUnscheduledActive t = true) :
    t.plannedStartTime.truthy = false ∧ t.completed = false := by
  unfold isUnscheduledActive at h
  simp only [Bool.and_eq_true, Bool.not_eq_true'] at h
  exact h

theorem overlapsAny_eq_overlapB {t' : Task} {time : Nat}
    (ht : t'.plannedStartTime.toMinutes = some time) (sched : List Task) :
    (sched.any fun s => overlapB t' s) =
      overlapsAny sched time (time + durOf t') := by
  unfold overlapsAny
  congr 1
  funext s
  unfold overlapB
  rw [ht]
  cases s.plannedStartTime.toMinutes <;> rfl

/-- A task committed by `autoPlaceOne` does not overlap any entry of the
committed set it was checked against. -/
theorem placed_no_overlap {sched : List Task} {t : Task} {tv : TimeStr}
    (h : autoPlaceOne sched t = some tv) :
    ∀ s ∈ sched, overlapB (setStart tv t) s = false := by
  obtain ⟨hh, mm, time, htv, hmin, hov⟩ := autoPlaceOne_sound h
  intro s hs
  have hts : (setStart tv t).plannedStartTime.toMinutes = some time := hmin
  have hany : (sched.any fun s => overlapB (setStart tv t) s) = false := by
    rw [overlapsAny_eq_overlapB hts sched]
    exact hov
  rw [List.any_eq_false] at hany
  simpa using hany s hs

/-- The committed tv of `autoPlaceOne` is a well-formed, truthy time. -/
theorem placed_truthy {sched : List Task} {t : Task} {tv : TimeStr}
    (h : autoPlaceOne sched t = some tv) : tv.truthy = true := by
  obtain ⟨hh, mm, time, htv, -, -⟩ := autoPlaceOne_sound h
  rw [htv]
  rfl

/-- Core covering argument: when every active scheduled store record is
mirrored by an entry of a pairwise collision-free committed set, and ids are
unique, the store itself satisfies the non-overlap invariant. -/
theorem store_disjoint_of_cover {store sched : List Task}
    (hsid : (store.map Task.id).Nodup)
    (hpair : sched.Pairwise fun a b => overlapB a b = false)
    (hcov : ∀ a ∈ store, a.completed = false → a.plannedStartTime.truthy = true →
      ∃ b ∈ sched, b.plannedStartTime = a.plannedStartTime ∧
        durOf b = durOf a ∧ b.id = a.id) :
    TasksDisjoint store := by
  unfold TasksDisjoint
  have hids : store.Pairwise fun x y => x.id ≠ y.id := List.pairwise_map.mp hsid
  refine hids.imp_of_mem ?_
  intro a b ha hb hne
  by_cases hca : a.completed = true
  · simp [conflictB, hca]
  by_cases hcb : b.completed = true
  · simp [conflictB, hcb]
  suffices h : overlapB a b = false by simp [conflictB, h]
  cases hta : a.plannedStartTime.toMinutes with
  | none => simp [overlapB, hta]
  | some sa =>
      cases htb : b.plannedStartTime.toMinutes with
      | none => simp [overlapB, hta, htb]
      | some sb =>
          obtain ⟨ba, hba, hba1, hba2, hba3⟩ :=
            hcov a ha (Bool.eq_false_iff.mpr hca) (truthy_of_toMinutes_some hta)
          obtain ⟨bb, hbb, hbb1, hbb2, hbb3⟩ :=
            hcov b hb (Bool.eq_false_iff.mpr hcb) (truthy_of_toMinutes_some htb)
          have hneb : ba ≠ bb := fun he => hne (by rw [← hba3, ← hbb3, he])
          have hsymm : Symmetric fun x y : Task => overlapB x y = false :=
            fun x y hxy => (overlapB_symm y x).trans hxy
          have hof : overlapB ba bb = false :=
            List.Pairwise.forall hsymm hpair hba hbb hneb
          have heq : overlapB a b = overlapB ba bb := by
            unfold overlapB
            rw [hba1, hbb1, hba2, hbb2]
          rw [heq, hof]

/-- Loop invariant of `autoLoop`: the committed set stays pairwise
collision-free, every active scheduled store record stays mirrored in it,
and unique ids are preserved; hence the final store is non-overlapping. -/
theorem autoLoop_disjoint (order : List Task) :
    ∀ (store sched : List Task) (count : Nat),
      (store.map Task.id).Nodup →
      (order.map Task.id).Nodup →
      (∀ u ∈ order, u ∈ store ∧ isUnscheduledActive u = true) →
      (∀ s ∈ sched, s.completed = false) →
      sched.Pairwise (fun a b => overlapB a b = false) →
      (∀ a ∈ store, a.completed = false → a.plannedStartTime.truthy = true →
        ∃ b ∈ sched, b.plannedStartTime = a.plannedStartTime ∧
          durOf b = durOf a ∧ b.id = a.id) →
      (∀ s ∈ sched, ∃ a ∈ store, a.completed = false ∧
        a.plannedStartTime.truthy = true ∧ a.id = s.id) →
      ((sched.map Task.id).Nodup) →
      TasksDisjoint (autoLoop order store sched count).1 := by
  induction order with
  | nil =>
      intro store sched count hsid _ _ _ hpair hcov _ _
      exact store_disjoint_of_cover hsid hpair hcov
  | cons t rest ih =>
      intro store sched count hsid hoid hord hact hpair hcov hsrc hschid
      have hmemt := hord t (List.mem_cons_self t rest)
      obtain ⟨htmem, htuns⟩ := hmemt
      obtain ⟨httruthy, htcomp⟩ := unsched_active_elim htuns
      have hoid' : (rest.map Task.id).Nodup := by
        simpa using (by simpa using hoid : (t.id :: rest.map Task.id).Nodup).of_cons
      have htid_notin : t.id ∉ rest.map Task.id := by
        have : (t.id :: rest.map Task.id).Nodup := by simpa using hoid
        exact (List.nodup_cons.mp this).1
      cases hplace : autoPlaceOne sched t with
      | none =>
          simp only [autoLoop, hplace]
          exact ih store sched count hsid hoid'
            (fun u hu => hord u (List.mem_cons_of_mem t hu))
            hact hpair hcov hsrc hschid
      | some tv =>
          simp only [autoLoop, hplace]
          have htv_truthy : tv.truthy = true := placed_truthy hplace
          have hcross : ∀ s ∈ sched, overlapB (setStart tv t) s = false :=
            placed_no_overlap hplace
          -- the id of the placed task does not occur in the committed set
          have htid_sched : t.id ∉ sched.map Task.id := by
            intro hmem
            obtain ⟨s, hs, hsid_eq⟩ := List.mem_map.mp hmem
            obtain ⟨a, hamem, -, hatruthy, haid⟩ := hsrc s hs
            have : a = t :=
              eq_of_mem_of_id_eq hsid hamem htmem (haid.trans hsid_eq)
            rw [this] at hatruthy
            rw [httruthy] at hatruthy
            cases hatruthy
          refine ih _ _ _ ?_ hoid' ?_ ?_ ?_ ?_ ?_ ?_
          · rw [updateTask_map store t.id (setStart tv) Task.id fun u => rfl]
            exact hsid
          · intro u hu
            obtain ⟨humem, huuns⟩ := hord u (List.mem_cons_of_mem t hu)
            have hune : u.id ≠ t.id := by
              intro he
              exact htid_notin (he ▸ List.mem_map_of_mem Task.id hu)
            exact ⟨mem_updateTask_of_ne humem hune, huuns⟩
          · intro s hs
            rcases List.mem_append.mp hs with hs | hs
            · exact hact s hs
            · rw [List.mem_singleton.mp hs]
              exact htcomp
          · rw [List.pairwise_append]
            refine ⟨hpair, List.pairwise_singleton _ _, ?_⟩
            intro x hx y hy
            rw [List.mem_singleton.mp hy]
            exact (overlapB_symm x (setStart tv t)).trans (hcross x hx)
          · intro a hamem hacomp hatruthy
            rcases updateTask_mem_nodup hsid htmem hamem with ha | ha
            · obtain ⟨b, hb, h1, h2, h3⟩ := hcov a ha hacomp hatruthy
              exact ⟨b, List.mem_append_left _ hb, h1, h2, h3⟩
            · subst ha
              exact ⟨setStart tv t,
                List.mem_append_right _ (List.mem_singleton_self _), rfl, rfl, rfl⟩
          · intro s hs
            rcases List.mem_append.mp hs with hs | hs
            · obtain ⟨a, hamem, h1, h2, h3⟩ := hsrc s hs
              have hane : a.id ≠ t.id := by
                intro he
                have : a = t := eq_of_mem_of_id_eq hsid hamem htmem he
                rw [this, httruthy] at h2
                cases h2
              exact ⟨a, mem_updateTask_of_ne hamem hane, h1, h2, h3⟩
            · rw [List.mem_singleton.mp hs]
              exact ⟨setStart tv t, mem_updateTask_self hsid htmem, htcomp,
                htv_truthy, rfl⟩
          · rw [List.map_append]
            rw [List.nodup_append]
            refine ⟨hschid, List.nodup_singleton _, ?_⟩
            intro x hx hx'
            have : x = t.id := by simpa [setStart] using hx'
            exact htid_sched (this ▸ hx)

theorem autoScheduleTasks_eq {tasks : List Task}
    (h : (unscheduledOf tasks).isEmpty = false) :
    autoScheduleTasks tasks =
      autoLoop (placementOrder tasks) tasks (tasks.filter isScheduledActive) 0 := by
  simp only [autoScheduleTasks, h, Bool.false_eq_true, if_false]

/-- C1 (corrected).  Auto-schedule preserves the non-overlap invariant: when
the input store has pairwise distinct ids (the data model's id uniqueness)
and its active scheduled records are already pairwise non-overlapping, then
after one `autoScheduleTasks` run every pair of distinct active records with
a parseable `plannedStartTime` still has non-overlapping derived intervals.
The unamended claim fails because the run never repairs a pre-existing
overlap in its input (see the counterexample). -/
theorem autoSchedule_nonoverlap (tasks : List Task)
    (hids : (tasks.map Task.id).Nodup) (hdisj : TasksDisjoint tasks) :
    TasksDisjoint (autoScheduleTasks tasks).1 := by
  by_cases he : (unscheduledOf tasks).isEmpty = true
  · simp only [autoScheduleTasks, he, if_true]
    exact hdisj
  · rw [autoScheduleTasks_eq (Bool.eq_false_iff.mpr he)]
    have hsub : (tasks.filter isScheduledActive).Sublist tasks :=
      List.filter_sublist tasks
    refine autoLoop_disjoint (placementOrder tasks) tasks
      (tasks.filter isScheduledActive) 0 hids (placementOrder_ids_nodup hids)
      (fun u hu => mem_placementOrder hu) ?_ ?_ ?_ ?_ ?_
    · intro s hs
      have := (List.mem_filter.mp hs).2
      unfold isScheduledActive at this
      simp only [Bool.and_eq_true, Bool.not_eq_true'] at this
      exact this.2
    · have hp : (tasks.filter isScheduledActive).Pairwise
          fun a b => conflictB a b = false := List.Pairwise.sublist hsub hdisj
      refine hp.imp_of_mem ?_
      intro a b ha hb hcab
      have hA := (List.mem_filter.mp ha).2
      have hB := (List.mem_filter.mp hb).2
      unfold isScheduledActive at hA hB
      simp only [Bool.and_eq_true, Bool.not_eq_true'] at hA hB
      unfold conflictB at hcab
      simpa [hA.2, hB.2] using hcab
    · intro a hamem hacomp hatruthy
      refine ⟨a, List.mem_filter.mpr ⟨hamem, ?_⟩, rfl, rfl, rfl⟩
      unfold isScheduledActive
      simp [hacomp, hatruthy]
    · intro s hs
      have hmem := (List.mem_filter.mp hs).1
      have hprop := (List.mem_filter.mp hs).2
      unfold isScheduledActive at hprop
      simp only [Bool.and_eq_true, Bool.not_eq_true'] at hprop
      exact ⟨s, hmem, hprop.2, hprop.1, rfl⟩
    · exact List.Nodup.sublist (hsub.map Task.id) hids

/-- Witness: on a store with one pre-scheduled task and one unscheduled
task, the amended C1 theorem applies and its hypotheses hold. -/
theorem autoSchedule_nonoverlap_witness :
    TasksDisjoint (autoScheduleTasks
      [⟨1, Priority.medium, none, TimeStr.null, TimeStr.valid 9 0, some 30,
        false, 0⟩,
       ⟨2, Priority.medium, none, TimeStr.null, TimeStr.null, some 30,
        false, 0⟩]).1 :=
  autoSchedule_nonoverlap _ (by decide) (by decide)

/-- Counterexample to C1 as frozen: a store loaded with two active tasks
both scheduled at 09:00 for 30 minutes (plus one unscheduled task, so the
run does real work) still contains that overlapping pair after
`autoScheduleTasks` completes. -/
theorem autoSchedule_nonoverlap_counterexample :
    ¬ TasksDisjoint (autoScheduleTasks
      [⟨1, Priority.medium, none, TimeStr.null, TimeStr.valid 9 0, some 30,
        false, 0⟩,
       ⟨2, Priority.medium, none, TimeStr.null, TimeStr.valid 9 0, some 30,
        false, 0⟩,
       ⟨3, Priority.medium, none, TimeStr.null, TimeStr.null, some 30,
        false, 0⟩]).1 := by
  decide

/-! Frame machinery for C10. -/

theorem storeFrame_updateTask {tasks store : List Task} {t : Task} {tv : TimeStr}
    (hids : (tasks.map Task.id).Nodup) (hf : StoreFrame tasks store)
    (ht : t ∈ tasks) (htuns : isUnscheduledActive t = true)
    (htv : tv.truthy = true) :
    StoreFrame tasks (updateTask store t.id (setStart tv)) := by
  obtain ⟨hlen, hidx⟩ := hf
  refine ⟨(updateTask_length store t.id (setStart tv)).trans hlen, ?_⟩
  intro i h1 h2
  have h2' : i < store.length := by
    rw [updateTask_length] at h2
    exact h2
  rcases updateTask_get i h2' h2 with hg | ⟨hg, hgid⟩
  · rw [hg]
    exact hidx i h1 h2'
  · rcases hidx i h1 h2' with ho | ⟨tv', htv', ho, huns⟩
    · rw [ho] at hg hgid
      have hti : tasks.get ⟨i, h1⟩ = t :=
        eq_of_mem_of_id_eq hids (tasks.get_mem _ _) ht hgid
      refine Or.inr ⟨tv, htv, hg, ?_⟩
      rw [hti]
      exact htuns
    · rw [ho] at hg
      exact Or.inr ⟨tv, htv, by rw [hg]; rfl, huns⟩

theorem autoLoop_frame {tasks : List Task} (hids : (tasks.map Task.id).Nodup)
    (order : List Task) :
    ∀ (store sched : List Task) (count : Nat),
      (∀ u ∈ order, u ∈ tasks ∧ isUnscheduledActive u = true) →
      StoreFrame tasks store →
      StoreFrame tasks (autoLoop order store sched count).1 := by
  induction order with
  | nil => intro store sched count _ hf; exact hf
  | cons t rest ih =>
      intro store sched count hord hf
      obtain ⟨htmem, htuns⟩ := hord t (List.mem_cons_self t rest)
      cases hplace : autoPlaceOne sched t with
      | none =>
          simp only [autoLoop, hplace]
          exact ih store sched count
            (fun u hu => hord u (List.mem_cons_of_mem t hu)) hf
      | some tv =>
          simp only [autoLoop, hplace]
          exact ih _ _ _ (fun u hu => hord u (List.mem_cons_of_mem t hu))
            (storeFrame_updateTask hids hf htmem htuns (placed_truthy hplace))

theorem autoSchedule_storeFrame (tasks : List Task)
    (hids : (tasks.map Task.id).Nodup) :
    StoreFrame tasks (autoScheduleTasks tasks).1 := by
  have hrefl : StoreFrame tasks tasks := ⟨rfl, fun i h1 h2 => Or.inl rfl⟩
  by_cases he : (unscheduledOf tasks).isEmpty = true
  · simp only [autoScheduleTasks, he, if_true]
    exact hrefl
  · rw [autoScheduleTasks_eq (Bool.eq_false_iff.mpr he)]
    exact autoLoop_frame hids (placementOrder tasks) tasks
      (tasks.filter isScheduledActive) 0
      (fun u hu => mem_placementOrder hu) hrefl

/-- C10.  Frame property of one auto-schedule run: the store keeps length and
order; every record that was completed or already had a truthy
`plannedStartTime` is left completely unchanged; every record the run does
modify differs only in `plannedStartTime` (id, duration, preference, due
date, priority, completion flag and all remaining fields are preserved), was
an unscheduled active record, and afterwards carries a truthy start time; in
particular records the run fails to place are unchanged.  The hypothesis is
the data model's id uniqueness. -/
theorem autoSchedule_frame (tasks : List Task)
    (hids : (tasks.map Task.id).Nodup) :
    ((autoScheduleTasks tasks).1).length = tasks.length ∧
      ∀ i (h1 : i < tasks.length)
        (h2 : i < ((autoScheduleTasks tasks).1).length),
        (((autoScheduleTasks tasks).1).get ⟨i, h2⟩).id =
            (tasks.get ⟨i, h1⟩).id ∧
        (((autoScheduleTasks tasks).1).get ⟨i, h2⟩).plannedDuration =
            (tasks.get ⟨i, h1⟩).plannedDuration ∧
        (((autoScheduleTasks tasks).1).get ⟨i, h2⟩).preferredTime =
            (tasks.get ⟨i, h1⟩).preferredTime ∧
        (((autoScheduleTasks tasks).1).get ⟨i, h2⟩).dueDate =
            (tasks.get ⟨i, h1⟩).dueDate ∧
        (((autoScheduleTasks tasks).1).get ⟨i, h2⟩).priority =
            (tasks.get ⟨i, h1⟩).priority ∧
        (((autoScheduleTasks tasks).1).get ⟨i, h2⟩).completed =
            (tasks.get ⟨i, h1⟩).completed ∧
        (((autoScheduleTasks tasks).1).get ⟨i, h2⟩).extra =
            (tasks.get ⟨i, h1⟩).extra ∧
        (((tasks.get ⟨i, h1⟩).plannedStartTime.truthy = true ∨
            (tasks.get ⟨i, h1⟩).completed = true) →
          ((autoScheduleTasks tasks).1).get ⟨i, h2⟩ = tasks.get ⟨i, h1⟩) ∧
        (((autoScheduleTasks tasks).1).get ⟨i, h2⟩ ≠ tasks.get ⟨i, h1⟩ →
          isUnscheduledActive (tasks.get ⟨i, h1⟩) = true ∧
          (((autoScheduleTasks tasks).1).get
              ⟨i, h2⟩).plannedStartTime.truthy = true) := by
  obtain ⟨hlen, hidx⟩ := autoSchedule_storeFrame tasks hids
  refine ⟨hlen, ?_⟩
  intro i h1 h2
  rcases hidx i h1 h2 with ho | ⟨tv, htv, ho, huns⟩
  · rw [ho]
    exact ⟨rfl, rfl, rfl, rfl, rfl, rfl, rfl, fun _ => rfl,
      fun hne => absurd rfl hne⟩
  · rw [ho]
    obtain ⟨hts, htc⟩ := unsched_active_elim huns
    refine ⟨rfl, rfl, rfl, rfl, rfl, rfl, rfl, ?_, fun _ => ⟨huns, htv⟩⟩
    intro hcase
    rcases hcase with hcase | hcase
    · rw [hts] at hcase; cases hcase
    · rw [htc] at hcase; cases hcase

/-- Witness: the C10 frame theorem applied to a concrete one-task store. -/
theorem autoSchedule_frame_witness :
    ((autoScheduleTasks
      [⟨5, Priority.high, some 3, TimeStr.null, TimeStr.null, none,
        false, 7⟩]).1).length = 1 :=
  (autoSchedule_frame _ (by decide)).1

/-- C2.  Per-task placement of one auto-schedule iteration: a parseable
preferred time inside the `[08:00, 20:00)` window that does not collide with
the committed set is committed verbatim; otherwise the engine commits the
first collision-free candidate of the 15-minute scan over the window (the
candidate grid is characterised exactly); if every candidate collides the
task is simply left unscheduled, a plain `none` result rather than an error;
and every commit is threaded into both the store and the committed set
before the next task is processed. -/
theorem auto_place_correct (sched : List Task) (t : Task) :
    (∀ pH pM, t.preferredTime = TimeStr.valid pH pM →
      overlapsAny sched (pH * 60 + pM) (pH * 60 + pM + durOf t) = false →
      workStartMins ≤ pH * 60 + pM →
      pH * 60 + pM + durOf t ≤ workEndMins →
      autoPlaceOne sched t = some t.preferredTime) ∧
    (∀ time, time ∈ candidateStarts (durOf t) ↔
      workStartMins ≤ time ∧ time + durOf t ≤ workEndMins ∧
        (time - workStartMins) % 15 = 0) ∧
    (tryPreferred sched t = none →
      ∀ tv, autoPlaceOne sched t = some tv →
        ∃ time, time ∈ candidateStarts (durOf t) ∧
          overlapsAny sched time (time + durOf t) = false ∧
          tv = TimeStr.valid (time / 60) (time % 60) ∧
          ∀ u ∈ candidateStarts (durOf t), u < time →
            overlapsAny sched u (u + durOf t) = true) ∧
    (tryPreferred sched t = none →
      autoPlaceOne sched t = none →
        ∀ u ∈ candidateStarts (durOf t),
          overlapsAny sched u (u + durOf t) = true) ∧
    (∀ rest store count tv, autoPlaceOne sched t = some tv →
      autoLoop (t :: rest) store sched count =
        autoLoop rest (updateTask store t.id (setStart tv))
          (sched ++ [setStart tv t]) (count + 1)) ∧
    (∀ rest store count, autoPlaceOne sched t = none →
      autoLoop (t :: rest) store sched count =
        autoLoop rest store sched count) := by
  refine ⟨?_, fun time => candidateStarts_mem (durOf t) time, ?_, ?_, ?_, ?_⟩
  · intro pH pM hpref hov hws hwe
    unfold autoPlaceOne tryPreferred
    rw [hpref]
    simp [hov, hws, hwe]
  · intro hpref tv h
    unfold autoPlaceOne at h
    rw [hpref] at h
    obtain ⟨time, hfind, htv⟩ := Option.map_eq_some'.mp h
    have hsorted := candidateStarts_pairwise (durOf t)
    obtain ⟨hp, as, bs, hdecomp, hall⟩ := List.find?_eq_some.mp hfind
    rw [hdecomp] at hsorted
    refine ⟨time, ?_, by simpa using hp, htv.symm, ?_⟩
    · rw [hdecomp]
      exact List.mem_append_right as (List.mem_cons_self time bs)
    · intro u hu hlt
      rw [hdecomp] at hu
      rcases List.mem_append.mp hu with hu | hu
      · have := hall u hu
        simpa using this
      · rcases List.mem_cons.mp hu with rfl | hu
        · omega
        · have hgt : time < u :=
            (List.pairwise_cons.mp (List.pairwise_append.mp hsorted).2.1).1 u hu
          omega
  · intro hpref hnone u hu
    unfold autoPlaceOne at hnone
    rw [hpref] at hnone
    have hfind : ((candidateStarts (durOf t)).find? fun time =>
        !overlapsAny sched time (time + durOf t)) = none := by
      cases hf : (candidateStarts (durOf t)).find? fun time =>
          !overlapsAny sched time (time + durOf t)
      · rfl
      · rw [hf] at hnone
        cases hnone
    have := List.find?_eq_none.mp hfind u hu
    simpa using this
  · intro rest store count tv h
    simp only [autoLoop, h]
  · intro rest store count h
    simp only [autoLoop, h]

/-- Witness: on an empty committed set, a task preferring 08:30 is committed
exactly at its preferred time by the C2 theorem. -/
theorem auto_place_correct_witness :
    autoPlaceOne []
      ⟨1, Priority.low, none, TimeStr.valid 8 30, TimeStr.null, some 30,
        false, 0⟩ = some (TimeStr.valid 8 30) :=
  (auto_place_correct [] _).1 8 30 rfl (by decide) (by decide) (by decide)

/-- C3.  The auto-schedule placement order: preference-bearing unscheduled
tasks first, in original relative order, followed by the remaining
unscheduled tasks sorted with higher priority rank first and longer planned
duration breaking ties; the sort is stable, so records tied on both keys
keep their original relative order. -/
theorem placement_order_correct (tasks : List Task) :
    (placementOrder tasks =
      (unscheduledOf tasks).filter (fun t => t.preferredTime.truthy) ++
        stableSortBy sortLe
          ((unscheduledOf tasks).filter fun t => !t.preferredTime.truthy)) ∧
    (placementOrder tasks).Perm (unscheduledOf tasks) ∧
    (stableSortBy sortLe
        ((unscheduledOf tasks).filter fun t => !t.preferredTime.truthy)).Perm
      ((unscheduledOf tasks).filter fun t => !t.preferredTime.truthy) ∧
    (stableSortBy sortLe
        ((unscheduledOf tasks).filter fun t => !t.preferredTime.truthy)).Pairwise
      (fun a b => priorityOrder b.priority < priorityOrder a.priority ∨
        (priorityOrder a.priority = priorityOrder b.priority ∧
          durOf b ≤ durOf a)) ∧
    (∀ a b : Task, priorityOrder a.priority = priorityOrder b.priority →
      durOf a = durOf b →
      [a, b].Sublist
        ((unscheduledOf tasks).filter fun t => !t.preferredTime.truthy) →
      [a, b].Sublist (stableSortBy sortLe
        ((unscheduledOf tasks).filter fun t => !t.preferredTime.truthy))) := by
  refine ⟨rfl, placementOrder_perm tasks, stableSortBy_perm sortLe _, ?_, ?_⟩
  · exact (stableSortBy_pairwise sortLe_trans sortLe_total _).imp
      fun h => (sortLe_iff _ _).mp h
  · intro a b hp hd hsub
    have hle : sortLe a b = true :=
      (sortLe_iff a b).mpr (Or.inr ⟨hp, le_of_eq hd.symm⟩)
    refine sublist_stableSortBy ?_ hsub
    exact List.pairwise_cons.mpr
      ⟨fun y hy => by rw [List.mem_singleton.mp hy]; exact hle,
        List.pairwise_singleton _ _⟩

/-- Witness: two tied unscheduled tasks (equal priority and duration) keep
their original relative order in the sorted part of the placement order. -/
theorem placement_order_correct_witness :
    [⟨1, Priority.medium, none, TimeStr.null, TimeStr.null, some 30,
        false, 0⟩,
     ⟨2, Priority.medium, none, TimeStr.null, TimeStr.null, some 30,
        false, 0⟩].Sublist (stableSortBy sortLe
      ((unscheduledOf
        [⟨1, Priority.medium, none, TimeStr.null, TimeStr.null, some 30,
          false, 0⟩,
         ⟨2, Priority.medium, none, TimeStr.null, TimeStr.null, some 30,
          false, 0⟩]).filter fun t => !t.preferredTime.truthy)) :=
  (placement_order_correct _).2.2.2.2 _ _ rfl rfl (List.Sublist.refl _)

/-- C4 (corrected).  The set of tasks one auto-schedule run attempts to
place is exactly the set of tasks with no truthy `plannedStartTime` that are
not completed: the filter at the top of `autoScheduleTasks` carries no
due-date condition, so, contrary to the frozen claim, tasks due on a
different day are attempted — and assigned a start time — as well (see the
counterexample). -/
theorem autoSchedule_attempted_set (tasks : List Task) :
    (placementOrder tasks).Perm
      (tasks.filter fun t => !t.plannedStartTime.truthy && !t.completed) :=
  placementOrder_perm tasks

/-- Counterexample to C4 as frozen: with today being day 0, a task due on
day 7 — not relevant to today by the renderer's own filter — and
unscheduled is still attempted by `autoScheduleTasks` and assigned the
start time 08:00. -/
theorem autoSchedule_attempted_set_counterexample :
    isRelevantToday 0
        ⟨1, Priority.medium, some 7, TimeStr.null, TimeStr.null, some 30,
          false, 0⟩ = false ∧
      ((autoScheduleTasks
        [⟨1, Priority.medium, some 7, TimeStr.null, TimeStr.null, some 30,
          false, 0⟩]).1).map Task.plannedStartTime = [TimeStr.valid 8 0] := by
  decide

/-- C5.  The engine's interval overlap predicate is exactly
`aStart < bEnd && aEnd > bStart` on half-open intervals; it is symmetric;
and two intervals that merely touch — one ending at minute 600, the other
starting at minute 600 — do not overlap. -/
theorem intervals_overlap_correct :
    (∀ aS aE bS bE, intervalsOverlap aS aE bS bE =
      (decide (aS < bE) && decide (aE > bS))) ∧
    (∀ aS aE bS bE,
      intervalsOverlap aS aE bS bE = intervalsOverlap bS bE aS aE) ∧
    (∀ aS bE, intervalsOverlap aS 600 600 bE = false) := by
  refine ⟨fun _ _ _ _ => rfl, ?_, ?_⟩
  · intro aS aE bS bE
    unfold intervalsOverlap
    simp [gt_iff_lt, Bool.and_comm]
  · intro aS bE
    unfold intervalsOverlap
    simp

/-- C6.  Quick-schedule of a found task at a parsed target `h:m`: when the
target hour falls outside `[startHour, endHour)` of the rendered timeline
(with non-negative hours this means `endHour <= h`) the call rejects with
the out-of-window error and the store is unchanged; when the interval
`[myStart, myStart + duration)` collides with any active scheduled task
other than the task itself it rejects with the slot-occupied error and the
store is unchanged; otherwise exactly `plannedStartTime` is set to the
target time — every other field of every record, `plannedDuration`
included, is untouched. -/
theorem quick_schedule_correct (tasks : List Task) (taskId : Nat)
    (h m : Nat) (task : Task)
    (hfind : (tasks.find? fun t => decide (t.id = taskId)) = some task) :
    (endHour ≤ h → quickScheduleTask tasks taskId (TimeStr.valid h m) =
      (tasks, QuickResult.outOfWindow)) ∧
    (h < endHour →
      overlapsAny (activeOthers tasks taskId) (h * 60 + m)
          (h * 60 + m + durOf task) = true →
      quickScheduleTask tasks taskId (TimeStr.valid h m) =
        (tasks, QuickResult.slotOccupied)) ∧
    (h < endHour →
      overlapsAny (activeOthers tasks taskId) (h * 60 + m)
          (h * 60 + m + durOf task) = false →
      quickScheduleTask tasks taskId (TimeStr.valid h m) =
        (updateTask tasks taskId (setStart (TimeStr.valid h m)),
          QuickResult.committed (TimeStr.valid h m)) ∧
      (updateTask tasks taskId (setStart (TimeStr.valid h m))).map
          (fun t => (t.id, t.priority, t.dueDate, t.preferredTime,
            t.plannedDuration, t.completed, t.extra)) =
        tasks.map fun t => (t.id, t.priority, t.dueDate, t.preferredTime,
          t.plannedDuration, t.completed, t.extra)) := by
  refine ⟨?_, ?_, ?_⟩
  · intro hh
    unfold quickScheduleTask
    rw [hfind]
    simp [hh, startHour]
  · intro hlt hov
    unfold quickScheduleTask
    rw [hfind]
    have hnle : ¬(endHour ≤ h) := Nat.not_le.mpr hlt
    simp [hnle, startHour, hov]
  · intro hlt hov
    unfold quickScheduleTask
    rw [hfind]
    have hnle : ¬(endHour ≤ h) := Nat.not_le.mpr hlt
    refine ⟨by simp [hnle, startHour, hov], ?_⟩
    exact updateTask_map tasks taskId (setStart (TimeStr.valid h m)) _
      fun u => rfl

/-- Witness: scheduling a second task on top of an existing 09:00-09:30
task is rejected as slot-occupied with the store unchanged, by the C6
theorem at a concrete store. -/
theorem quick_schedule_correct_witness :
    quickScheduleTask
      [⟨1, Priority.medium, none, TimeStr.null, TimeStr.valid 9 0, some 30,
        false, 0⟩,
       ⟨2, Priority.medium, none, TimeStr.null, TimeStr.null, some 30,
        false, 0⟩] 2 (TimeStr.valid 9 15) =
      ([⟨1, Priority.medium, none, TimeStr.null, TimeStr.valid 9 0, some 30,
        false, 0⟩,
        ⟨2, Priority.medium, none, TimeStr.null, TimeStr.null, some 30,
          false, 0⟩], QuickResult.slotOccupied) :=
  (quick_schedule_correct _ 2 9 15
    ⟨2, Priority.medium, none, TimeStr.null, TimeStr.null, some 30,
      false, 0⟩ (by decide)).2.1 (by decide) (by decide)

/-- C7.  Drag-to-timeline drop: the drop offset in minutes is snapped to
the nearest 15-minute increment (the snapped value is a multiple of 15 and
within 7.5 minutes of the raw value, i.e. twice the distance is at most
15); when the derived hour falls outside `[startHour, endHour)` of the
rendered window nothing at all changes; otherwise `plannedStartTime` is
set to the computed time, `plannedDuration` to the dragged task's duration
(30 when unset), and `dueDate` is defaulted to today exactly when the task
had none — and no overlap check is consulted, so the same commit happens
even when the placement collides with an active scheduled task. -/
theorem handle_drop_correct (tasks : List Task) (draggedTask : Task)
    (today : Nat) (relativeY : Int) :
    (dropSnapped relativeY % 15 = 0 ∧
      (2 * ((startHour : Int) * 60 + relativeY - dropSnapped relativeY)).natAbs
        ≤ 15) ∧
    (dropHour relativeY < startHour ∨ (endHour : Int) ≤ dropHour relativeY →
      handleDrop tasks draggedTask today relativeY = tasks) ∧
    (¬(dropHour relativeY < startHour ∨
        (endHour : Int) ≤ dropHour relativeY) →
      handleDrop tasks draggedTask today relativeY =
        updateTask tasks draggedTask.id fun u =>
          { u with
            plannedStartTime := TimeStr.valid (dropHour relativeY).toNat
              (dropMinute relativeY).toNat
            plannedDuration := some (durOf draggedTask)
            dueDate := if draggedTask.dueDate = none then some today
              else u.dueDate }) ∧
    (¬(dropHour relativeY < startHour ∨
        (endHour : Int) ≤ dropHour relativeY) →
      overlapsAny (activeOthers tasks draggedTask.id)
          (dropSnapped relativeY).toNat
          ((dropSnapped relativeY).toNat + durOf draggedTask) = true →
      handleDrop tasks draggedTask today relativeY =
        updateTask tasks draggedTask.id fun u =>
          { u with
            plannedStartTime := TimeStr.valid (dropHour relativeY).toNat
              (dropMinute relativeY).toNat
            plannedDuration := some (durOf draggedTask)
            dueDate := if draggedTask.dueDate = none then some today
              else u.dueDate }) := by
  refine ⟨⟨?_, ?_⟩, ?_, ?_, fun hin _ => ?_⟩
  · unfold dropSnapped jsRound15
    omega
  · unfold dropSnapped jsRound15
    omega
  · intro hcase
    unfold handleDrop
    rw [if_pos hcase]
  · intro hcase
    unfold handleDrop
    rw [if_neg hcase]
  · unfold handleDrop
    rw [if_neg hin]

/-- Witness: a drop at raw offset 127 minutes snaps to 120 minutes (02:00)
and commits through the C7 theorem on a concrete store. -/
theorem handle_drop_correct_witness :
    handleDrop
      [⟨4, Priority.low, none, TimeStr.null, TimeStr.null, some 45,
        false, 0⟩]
      ⟨4, Priority.low, none, TimeStr.null, TimeStr.null, some 45, false, 0⟩
      11 127 =
      updateTask
        [⟨4, Priority.low, none, TimeStr.null, TimeStr.null, some 45,
          false, 0⟩] 4 (fun u =>
          { u with
            plannedStartTime := TimeStr.valid (dropHour 127).toNat
              (dropMinute 127).toNat
            plannedDuration := some 45
            dueDate := if (none : Option Nat) = none then some 11
              else u.dueDate }) :=
  (handle_drop_correct _ _ 11 127).2.2.1 (by decide)

/-- C8.  Duration floor: the duration committed by a resize is
`round(rawMinutes / 15) * 15` floored at 15 — in particular a raw height of
37 minutes commits 30 — and is always at least 15; the task form floors the
entered duration at 15 before saving, and the `|| 30` default applied by
`createTask` leaves that floored value untouched; after a resize commit
every record of the store is either unchanged or carries exactly the
snapped duration, which is at least 15. -/
theorem duration_floor_correct :
    (∀ rawMins, 15 ≤ resizeCommitDuration rawMins) ∧
    resizeCommitDuration 37 = 30 ∧
    (∀ hF mF, 15 ≤ submitDuration hF mF) ∧
    (∀ hF mF, jsOrNat (submitDuration hF mF) 30 = submitDuration hF mF) ∧
    (∀ tasks taskId rawMins t',
      t' ∈ handleResizeEnd tasks taskId rawMins →
      t' ∈ tasks ∨
        (t'.plannedDuration = some (resizeCommitDuration rawMins) ∧
          15 ≤ durOf t')) := by
  have hfloor : ∀ rawMins, 15 ≤ resizeCommitDuration rawMins := by
    intro rawMins
    simp only [resizeCommitDuration]
    split <;> omega
  refine ⟨hfloor, by decide, ?_, ?_, ?_⟩
  · intro hF mF
    simp only [submitDuration]
    split <;> omega
  · intro hF mF
    have h15 : 15 ≤ submitDuration hF mF := by
      simp only [submitDuration]
      split <;> omega
    unfold jsOrNat
    rw [if_neg (by omega)]
  · intro tasks taskId rawMins t' ht'
    unfold handleResizeEnd at ht'
    rcases updateTask_mem ht' with h | ⟨u, hu, hid, he⟩
    · exact Or.inl h
    · refine Or.inr ⟨by rw [he], ?_⟩
      have := hfloor rawMins
      rw [he]
      unfold durOf
      simp only []
      rw [if_neg (by omega)]
      exact this

/-- Witness: resizing the single stored task to a raw height of 37 minutes
leaves a store whose record either was unchanged or carries the snapped
30-minute duration; the C8 theorem applies at that concrete store. -/
theorem duration_floor_correct_witness :
    (⟨9, Priority.low, none, TimeStr.null, TimeStr.valid 10 0, some 30,
        false, 0⟩ : Task) ∈
        [(⟨9, Priority.low, none, TimeStr.null, TimeStr.valid 10 0, some 60,
          false, 0⟩ : Task)] ∨
      ((⟨9, Priority.low, none, TimeStr.null, TimeStr.valid 10 0, some 30,
        false, 0⟩ : Task).plannedDuration = some (resizeCommitDuration 37) ∧
        15 ≤ durOf ⟨9, Priority.low, none, TimeStr.null, TimeStr.valid 10 0,
          some 30, false, 0⟩) :=
  duration_floor_correct.2.2.2.2
    [⟨9, Priority.low, none, TimeStr.null, TimeStr.valid 10 0, some 60,
      false, 0⟩] 9 37 _ (by decide)

/-- A committed-set entry whose start time does not parse contributes
nothing to any iteration of the placement loop: the loop's results are as
if the entry were absent, wherever it sits in the committed set. -/
theorem autoLoop_transparent {x : Task}
    (hx : x.plannedStartTime.toMinutes = none) :
    ∀ (order A B store : List Task) (count : Nat),
      (∀ u ∈ order, u.id ≠ x.id) →
      autoLoop order (store ++ [x]) (A ++ x :: B) count =
        ((autoLoop order store (A ++ B) count).1 ++ [x],
          (autoLoop order store (A ++ B) count).2) := by
  intro order
  induction order with
  | nil => intro A B store count _; simp [autoLoop]
  | cons t rest ih =>
      intro A B store count hord
      have hplace_eq : autoPlaceOne (A ++ x :: B) t = autoPlaceOne (A ++ B) t :=
        autoPlaceOne_overlap_congr fun a b => overlapsAny_middle hx a b
      cases hplace : autoPlaceOne (A ++ B) t with
      | none =>
          simp only [autoLoop, hplace_eq, hplace]
          exact ih A B store count fun u hu => hord u (List.mem_cons_of_mem t hu)
      | some tv =>
          simp only [autoLoop, hplace_eq, hplace]
          rw [updateTask_append_ne
            (Ne.symm (hord t (List.mem_cons_self t rest)))]
          have hsh : (A ++ x :: B) ++ [setStart tv t] =
              A ++ x :: (B ++ [setStart tv t]) := by simp
          rw [hsh]
          have hsh2 : (A ++ B) ++ [setStart tv t] = A ++ (B ++ [setStart tv t]) := by
            simp
          rw [hsh2] at *
          exact ih A (B ++ [setStart tv t]) _ _
            fun u hu => hord u (List.mem_cons_of_mem t hu)

/-- C9.  Tolerance of malformed records by auto-schedule (every embedded
function is total, so no run can crash): a missing `plannedDuration` is
treated as the 30-minute default; a task with a malformed `preferredTime`
is placed through the no-preference slot scan; and a task with a malformed
`plannedStartTime` never blocks another placement — appending such a task
to the store leaves every placement, the final store contents for all other
tasks and the reported count unchanged. -/
theorem malformed_tolerated :
    (∀ (sched : List Task) (t : Task), t.plannedDuration = none →
      durOf t = 30 ∧
        autoPlaceOne sched t =
          autoPlaceOne sched { t with plannedDuration := some 30 }) ∧
    (∀ (sched : List Task) (t : Task), t.preferredTime = TimeStr.malformed →
      tryPreferred sched t = none ∧
        autoPlaceOne sched t =
          ((candidateStarts (durOf t)).find? fun time =>
            !overlapsAny sched time (time + durOf t)).map minutesToTimeStr) ∧
    (∀ (tasks : List Task) (x : Task),
      x.plannedStartTime = TimeStr.malformed → x.completed = false →
      x.id ∉ tasks.map Task.id →
      (autoScheduleTasks (tasks ++ [x])).1 = (autoScheduleTasks tasks).1 ++ [x] ∧
        (autoScheduleTasks (tasks ++ [x])).2 = (autoScheduleTasks tasks).2) := by
  refine ⟨?_, ?_, ?_⟩
  · intro sched t ht
    have hd : durOf t = 30 := by unfold durOf; rw [ht]
    exact ⟨hd, autoPlaceOne_congr rfl hd⟩
  · intro sched t ht
    constructor
    · unfold tryPreferred
      rw [ht]
    · unfold autoPlaceOne tryPreferred
      rw [ht]
  · intro tasks x hmal hcomp hnotin
    have hxmin : x.plannedStartTime.toMinutes = none := by rw [hmal]; rfl
    have hxtruthy : x.plannedStartTime.truthy = true := by rw [hmal]; rfl
    have hxuns : isUnscheduledActive x = false := by
      unfold isUnscheduledActive
      rw [hxtruthy, hcomp]
      rfl
    have hxsched : isScheduledActive x = true := by
      unfold isScheduledActive
      rw [hxtruthy, hcomp]
      rfl
    have hunz : unscheduledOf (tasks ++ [x]) = unscheduledOf tasks := by
      unfold unscheduledOf
      rw [List.filter_append]
      simp [hxuns]
    have hordz : placementOrder (tasks ++ [x]) = placementOrder tasks := by
      unfold placementOrder
      rw [hunz]
    have hschedz : (tasks ++ [x]).filter isScheduledActive =
        tasks.filter isScheduledActive ++ [x] := by
      rw [List.filter_append]
      simp [hxsched]
    have hordids : ∀ u ∈ placementOrder tasks, u.id ≠ x.id := by
      intro u hu he
      exact hnotin (he ▸ List.mem_map_of_mem Task.id (mem_placementOrder hu).1)
    by_cases he : (unscheduledOf tasks).isEmpty = true
    · have he2 : (unscheduledOf (tasks ++ [x])).isEmpty = true := by
        rw [hunz]; exact he
      simp [autoScheduleTasks, he, he2]
    · have he2 : (unscheduledOf (tasks ++ [x])).isEmpty = false := by
        rw [hunz]; exact Bool.eq_false_iff.mpr he
      rw [autoScheduleTasks_eq he2, autoScheduleTasks_eq (Bool.eq_false_iff.mpr he)]
      rw [hordz, hschedz]
      have := autoLoop_transparent hxmin (placementOrder tasks)
        (tasks.filter isScheduledActive) [] tasks 0 hordids
      simp only [List.append_nil] at this
      rw [this]
      exact ⟨rfl, rfl⟩

/-- Witness: appending a task with a malformed start time to a concrete
one-task store changes neither the placement of the other task nor the
reported count, by the C9 theorem. -/
theorem malformed_tolerated_witness :
    (autoScheduleTasks
      ([⟨1, Priority.medium, none, TimeStr.null, TimeStr.null, some 30,
          false, 0⟩] ++
        [⟨2, Priority.medium, none, TimeStr.null, TimeStr.malformed, some 30,
          false, 0⟩])).1 =
      (autoScheduleTasks
        [⟨1, Priority.medium, none, TimeStr.null, TimeStr.null, some 30,
          false, 0⟩]).1 ++
        [⟨2, Priority.medium, none, TimeStr.null, TimeStr.malformed, some 30,
          false, 0⟩] :=
  (malformed_tolerated.2.2 _ _ rfl rfl (by decide)).1

end TaskFlow
